import Mathlib

/-!
Verification of the rings-of-saturn integrity pipeline specification.

The repository ships documentation, README material and the React dashboard
frontend; the Python core (ledger, HDAG, TIC capsule, ZKML proof layer) is
described by the spec and the API documentation.  The ledger, resonance,
capsule and proof definitions below are therefore modelled from the spec,
while the dashboard definitions are translated from the TypeScript sources
under src/dashboard/frontend.
-/

namespace RingsOfSaturn

/-!  Canonical data encoding.

Modelled from the spec: the spec fixes "any cryptographic digest over a
canonical byte encoding" as the hashing scheme ("hash_block(block): pure
function, deterministic ... over a canonical byte encoding").  We model
canonical byte encodings as a free datatype of atoms and pairs; a digest is
any function `Data → Data`, and the cryptographic collision-freedom the spec
relies on is an explicit injectivity hypothesis on that function.  -/

inductive Data where
  | nat : Nat → Data
  | int : Int → Data
  | str : String → Data
  | pair : Data → Data → Data
  | nil : Data
deriving DecidableEq, Repr

/-- Encode a list canonically as nested pairs terminated by `nil`. -/
def encodeList {α : Type} (f : α → Data) : List α → Data
  | [] => Data.nil
  | a :: rest => Data.pair (f a) (encodeList f rest)

/-- Encode a rational by its reduced numerator and denominator. -/
def encodeRat (q : ℚ) : Data := Data.pair (Data.int q.num) (Data.nat q.den)

theorem encodeList_injective {α : Type} (f : α → Data)
    (hf : Function.Injective f) : Function.Injective (encodeList f) := by
  intro xs
  induction xs with
  | nil => intro ys h; cases ys with
    | nil => rfl
    | cons b bs => simp [encodeList] at h
  | cons a as ih =>
    intro ys h
    cases ys with
    | nil => simp [encodeList] at h
    | cons b bs =>
      simp only [encodeList, Data.pair.injEq] at h
      rw [hf h.1, ih h.2]

theorem encodeRat_injective : Function.Injective encodeRat := by
  intro p q h
  simp only [encodeRat, Data.pair.injEq, Data.int.injEq, Data.nat.injEq] at h
  exact Rat.ext h.1 h.2

/-!  Ledger.

Modelled from the spec: the ledger core (`ledger.py`) is not part of the
shipped sources; only `docs/api.md` documents it.  Per the spec §3/§4.1 a
transaction is an ordered key/value record, a block is
`{index, transactions, prev_hash, hash, timestamp}` with `hash` a digest of
the canonical encoding of every other field, and the ledger state is the
chain plus the pending queue, starting from a synthetic genesis block.  -/

/-- A transaction: an ordered key/value record (values kept as strings). -/
def Tx : Type := List (String × String)

instance : DecidableEq Tx := by unfold Tx; infer_instance

/-- Canonical encoding of one transaction. -/
def encodeTx (t : Tx) : Data :=
  encodeList (fun kv => Data.pair (Data.str kv.1) (Data.str kv.2)) t

theorem encodeTx_injective : Function.Injective encodeTx := by
  apply encodeList_injective
  intro a b h
  simp only [Data.pair.injEq, Data.str.injEq] at h
  exact Prod.ext h.1 h.2

structure Block where
  index : Nat
  transactions : List Tx
  prev_hash : Data
  timestamp : Nat
  hash : Data
deriving DecidableEq

/-- Canonical encoding of every block field except `hash` itself. -/
def blockContent (b : Block) : Data :=
  Data.pair (Data.nat b.index)
    (Data.pair b.prev_hash
      (Data.pair (Data.nat b.timestamp) (encodeList encodeTx b.transactions)))

structure LedgerState where
  chain : List Block
  pending : List Tx
deriving DecidableEq

/-- The sentinel previous-hash of the genesis block. -/
def genesisSentinel : Data := Data.str "0"

/-- The synthetic genesis block, hashed with digest `hashF`. -/
def genesisBlock (hashF : Data → Data) : Block :=
  let b : Block :=
    { index := 0, transactions := [], prev_hash := genesisSentinel,
      timestamp := 0, hash := Data.nil }
  { b with hash := hashF (blockContent b) }

/-- Initial ledger state: a chain holding only the synthetic genesis block. -/
def LedgerState.init (hashF : Data → Data) : LedgerState :=
  { chain := [genesisBlock hashF], pending := [] }

/-- `add_transaction(tx)` appends `tx` to the pending queue; never fails. -/
def add_transaction (tx : Tx) (st : LedgerState) : LedgerState :=
  { st with pending := st.pending ++ [tx] }

/-- Hash of the chain tail (the genesis sentinel when the chain is empty). -/
def tailHash (chain : List Block) : Data :=
  match chain.getLast? with
  | none => genesisSentinel
  | some b => b.hash

/-- The block `create_block` assembles before hashing: the next index, the
whole pending queue, the chain tail's hash and the sealing time. -/
def newBlock (st : LedgerState) (t : Nat) : Block :=
  { index := st.chain.length, transactions := st.pending,
    prev_hash := tailHash st.chain, timestamp := t, hash := Data.nil }

/-- The assembled block with its digest filled in. -/
def sealBlock (hashF : Data → Data) (st : LedgerState) (t : Nat) : Block :=
  { newBlock st t with hash := hashF (blockContent (newBlock st t)) }

/-- `create_block()` seals the pending queue into a new block at time `t`:
computes `prev_hash` from the chain tail, digests the canonical fields,
appends the block and clears the queue. -/
def create_block (hashF : Data → Data) (t : Nat) (st : LedgerState) :
    LedgerState :=
  { chain := st.chain ++ [sealBlock hashF st t], pending := [] }

/-- The per-block check of `validate_chain`: the stored hash matches the
recomputed digest, and (past the head) `prev_hash` matches the previous
block's hash. -/
def blockOk (hashF : Data → Data) (prev : Option Block) (b : Block) : Bool :=
  b.hash = hashF (blockContent b) &&
    match prev with
    | none => true
    | some p => b.prev_hash = p.hash

/-- One left-to-right walk of the chain, returning the first failing index. -/
def validateFrom (hashF : Data → Data) (prev : Option Block) (i : Nat) :
    List Block → Option Nat
  | [] => none
  | b :: rest =>
      if blockOk hashF prev b then validateFrom hashF (some b) (i + 1) rest
      else some i

/-- `validate_chain()`: walks the chain once; `none` means success, `some i`
reports the first offending index as a typed result. -/
def validate_chain (hashF : Data → Data) (st : LedgerState) : Option Nat :=
  validateFrom hashF none 0 st.chain

/-- Ledger states reachable solely through `add_transaction` and
`create_block` from the synthetic genesis state. -/
inductive Reachable (hashF : Data → Data) : LedgerState → Prop where
  | init : Reachable hashF (LedgerState.init hashF)
  | add (tx : Tx) {st : LedgerState} :
      Reachable hashF st → Reachable hashF (add_transaction tx st)
  | create (t : Nat) {st : LedgerState} :
      Reachable hashF st → Reachable hashF (create_block hashF t st)

/-!  Positional characterization of `validate_chain`. -/

/-- The last block of `xs`, falling back to `prev` when `xs` is empty. -/
def lastO (prev : Option Block) (xs : List Block) : Option Block :=
  match xs.getLast? with
  | none => prev
  | some b => some b

/-- The block preceding position `j`, with `prev` standing before the list. -/
def prevOf (prev : Option Block) (bs : List Block) (j : Nat) : Option Block :=
  if j = 0 then prev else bs[j - 1]?

/-- Position `j` of `c` fails its validation check (relative to `prev`). -/
def badFrom (hashF : Data → Data) (prev : Option Block) (bs : List Block)
    (j : Nat) : Prop :=
  ∃ b, bs[j]? = some b ∧ blockOk hashF (prevOf prev bs j) b = false

/-- Position `j` of the chain `c` fails its validation check: either the
stored hash differs from the recomputed digest, or (for `j > 0`) the block's
`prev_hash` differs from the hash of block `j - 1`. -/
def badAt (hashF : Data → Data) (bs : List Block) (j : Nat) : Prop :=
  badFrom hashF none bs j

theorem lastO_cons (prev : Option Block) (x : Block) (xs : List Block) :
    lastO prev (x :: xs) = lastO (some x) xs := by
  cases xs with
  | nil => rfl
  | cons y ys =>
    show (match (x :: y :: ys).getLast? with
          | none => prev | some b => some b) = _
    rw [List.getLast?_cons_cons]
    cases h : (y :: ys).getLast? with
    | none => exact absurd (List.getLast?_eq_none_iff.mp h) (by simp)
    | some b => simp [lastO, h]

theorem prevOf_cons (prev : Option Block) (b : Block) (rest : List Block)
    (j : Nat) : prevOf prev (b :: rest) (j + 1) = prevOf (some b) rest j := by
  cases j with
  | zero => simp [prevOf]
  | succ k => simp [prevOf]

theorem badFrom_cons_zero (hashF : Data → Data) (prev : Option Block)
    (b : Block) (rest : List Block) :
    badFrom hashF prev (b :: rest) 0 ↔ blockOk hashF prev b = false := by
  simp [badFrom, prevOf]

theorem badFrom_cons_succ (hashF : Data → Data) (prev : Option Block)
    (b : Block) (rest : List Block) (j : Nat) :
    badFrom hashF prev (b :: rest) (j + 1) ↔ badFrom hashF (some b) rest j := by
  simp [badFrom, prevOf_cons]

theorem validateFrom_append (hashF : Data → Data) (ys : List Block) :
    ∀ (xs : List Block) (prev : Option Block) (i : Nat),
      validateFrom hashF prev i (xs ++ ys) =
        match validateFrom hashF prev i xs with
        | some k => some k
        | none => validateFrom hashF (lastO prev xs) (i + xs.length) ys := by
  intro xs
  induction xs with
  | nil => intro prev i; simp [validateFrom, lastO]
  | cons x rest ih =>
    intro prev i
    show validateFrom hashF prev i (x :: (rest ++ ys)) = _
    cases hb : blockOk hashF prev x with
    | false => simp [validateFrom, hb]
    | true =>
      simp only [validateFrom, hb, if_true, lastO_cons, List.length_cons]
      rw [ih (some x) (i + 1)]
      have harith : i + 1 + rest.length = i + (rest.length + 1) := by omega
      rw [harith]

theorem validateFrom_eq_none_iff (hashF : Data → Data) :
    ∀ (c : List Block) (prev : Option Block) (i : Nat),
      validateFrom hashF prev i c = none ↔
        ∀ j, ¬ badFrom hashF prev c j := by
  intro c
  induction c with
  | nil => intro prev i; simp [validateFrom, badFrom]
  | cons b rest ih =>
    intro prev i
    cases hb : blockOk hashF prev b with
    | true =>
      rw [show validateFrom hashF prev i (b :: rest)
            = validateFrom hashF (some b) (i + 1) rest by
          simp [validateFrom, hb], ih (some b) (i + 1)]
      constructor
      · intro hall j
        cases j with
        | zero => rw [badFrom_cons_zero]; simp [hb]
        | succ k => rw [badFrom_cons_succ]; exact hall k
      · intro hall j
        have := hall (j + 1)
        rwa [badFrom_cons_succ] at this
    | false =>
      rw [show validateFrom hashF prev i (b :: rest) = some i by
          simp [validateFrom, hb]]
      constructor
      · intro habs; exact absurd habs (by simp)
      · intro hall
        exact absurd ((badFrom_cons_zero hashF prev b rest).mpr hb) (hall 0)

theorem validateFrom_eq_some_iff (hashF : Data → Data) :
    ∀ (c : List Block) (prev : Option Block) (i k : Nat),
      validateFrom hashF prev i c = some k ↔
        ∃ j, k = i + j ∧ badFrom hashF prev c j ∧
          ∀ m, m < j → ¬ badFrom hashF prev c m := by
  intro c
  induction c with
  | nil => intro prev i k; simp [validateFrom, badFrom]
  | cons b rest ih =>
    intro prev i k
    cases hb : blockOk hashF prev b with
    | false =>
      rw [show validateFrom hashF prev i (b :: rest) = some i by
          simp [validateFrom, hb]]
      constructor
      · intro hk
        have hik : i = k := Option.some.inj hk
        refine ⟨0, by omega, (badFrom_cons_zero hashF prev b rest).mpr hb, ?_⟩
        intro m hm; omega
      · rintro ⟨j, hk, hbad, hmin⟩
        have hj0 : j = 0 := by
          by_contra hne
          exact hmin 0 (Nat.pos_of_ne_zero hne)
            ((badFrom_cons_zero hashF prev b rest).mpr hb)
        subst hj0
        simp [hk]
    | true =>
      rw [show validateFrom hashF prev i (b :: rest)
            = validateFrom hashF (some b) (i + 1) rest by
          simp [validateFrom, hb], ih (some b) (i + 1) k]
      constructor
      · rintro ⟨j, hk, hbad, hmin⟩
        refine ⟨j + 1, by omega, (badFrom_cons_succ hashF prev b rest j).mpr hbad,
          ?_⟩
        intro m hm
        cases m with
        | zero => rw [badFrom_cons_zero]; simp [hb]
        | succ n =>
          rw [badFrom_cons_succ]
          exact hmin n (by omega)
      · rintro ⟨j, hk, hbad, hmin⟩
        cases j with
        | zero =>
          rw [badFrom_cons_zero] at hbad
          simp [hb] at hbad
        | succ n =>
          refine ⟨n, by omega, (badFrom_cons_succ hashF prev b rest n).mp hbad,
            ?_⟩
          intro m hm
          have := hmin (m + 1) (by omega)
          rwa [badFrom_cons_succ] at this

theorem blockContent_hashUpdate (b : Block) (h : Data) :
    blockContent { b with hash := h } = blockContent b := rfl

theorem blockOk_seal (hashF : Data → Data) (st : LedgerState) (t : Nat) :
    blockOk hashF (lastO none st.chain) (sealBlock hashF st t) = true := by
  unfold blockOk
  cases hgl : st.chain.getLast? with
  | none => simp [lastO, hgl, sealBlock, newBlock, tailHash, blockContent]
  | some p =>
    simp [lastO, hgl, sealBlock, newBlock, tailHash, blockContent]

/-- Every ledger state reachable solely through the API validates. -/
theorem reachable_validates (hashF : Data → Data) (st : LedgerState)
    (h : Reachable hashF st) : validate_chain hashF st = none := by
  induction h with
  | init =>
    simp [validate_chain, LedgerState.init, validateFrom, blockOk,
      genesisBlock, blockContent]
  | add tx hr ih =>
    simpa [validate_chain, add_transaction] using ih
  | create t hr ih =>
    rename_i st'
    show validateFrom hashF none 0 (st'.chain ++ [sealBlock hashF st' t]) = none
    rw [validateFrom_append]
    rw [validate_chain] at ih
    rw [ih]
    simp [validateFrom, blockOk_seal]

theorem blockContent_txs_ne (b : Block) (txs' : List Tx)
    (hne : txs' ≠ b.transactions) :
    blockContent { b with transactions := txs' } ≠ blockContent b := by
  intro h
  simp only [blockContent, Data.pair.injEq] at h
  exact hne (encodeList_injective encodeTx encodeTx_injective h.2.2.2)

/-- Out-of-band mutation of the transactions of the block at position `i` of
a valid chain makes `validate_chain` report exactly index `i`. -/
theorem validate_chain_set_transactions (hashF : Data → Data)
    (hinj : Function.Injective hashF) (st : LedgerState)
    (hval : validate_chain hashF st = none) (i : Nat) (b : Block)
    (txs' : List Tx) (hb : st.chain[i]? = some b)
    (hne : txs' ≠ b.transactions) :
    validate_chain hashF
      { st with chain := st.chain.set i { b with transactions := txs' } }
      = some i := by
  have hall : ∀ j, ¬ badFrom hashF none st.chain j :=
    (validateFrom_eq_none_iff hashF st.chain none 0).mp hval
  obtain ⟨hilen, -⟩ := List.getElem?_eq_some.mp hb
  set b' : Block := { b with transactions := txs' } with hb'
  have hset_i : (st.chain.set i b')[i]? = some b' :=
    List.getElem?_set_self hilen
  have hset_ne : ∀ m, m ≠ i → (st.chain.set i b')[m]? = st.chain[m]? := by
    intro m hm
    exact List.getElem?_set_ne (Ne.symm hm)
  have hprev_eq : ∀ m, m ≤ i →
      prevOf none (st.chain.set i b') m = prevOf none st.chain m := by
    intro m hm
    unfold prevOf
    by_cases hm0 : m = 0
    · simp [hm0]
    · have : m - 1 ≠ i := by omega
      simp [hm0, hset_ne (m - 1) this]
  have hokb : blockOk hashF (prevOf none st.chain i) b = true := by
    by_contra hfalse
    exact hall i ⟨b, hb, by simpa using hfalse⟩
  have hhash : b.hash = hashF (blockContent b) := by
    unfold blockOk at hokb
    simp only [Bool.and_eq_true, decide_eq_true_eq] at hokb
    exact hokb.1
  have hbadi : badFrom hashF none (st.chain.set i b') i := by
    refine ⟨b', hset_i, ?_⟩
    unfold blockOk
    apply Bool.and_eq_false_iff.mpr
    left
    apply decide_eq_false
    show ¬ b'.hash = hashF (blockContent b')
    have hb'h : b'.hash = b.hash := rfl
    rw [hb'h, hhash]
    intro hcontra
    exact blockContent_txs_ne b txs' hne (hinj hcontra.symm)
  apply (validateFrom_eq_some_iff hashF (st.chain.set i b') none 0 i).mpr
  refine ⟨i, by omega, hbadi, ?_⟩
  intro m hm hbadm
  apply hall m
  obtain ⟨bm, hbm, hokm⟩ := hbadm
  rw [hset_ne m (by omega)] at hbm
  rw [hprev_eq m (by omega)] at hokm
  exact ⟨bm, hbm, hokm⟩

/-!  HDAG resonance.

Modelled from the spec: the HDAG core (`hdag/hdag.py`) is not part of the
shipped sources; per the spec §4.2, `resonance(x, y)` is the cosine
similarity `dot(x,y) / (‖x‖·‖y‖)` of two vectors, with the degenerate case
of a zero-norm operand fixed to `0.0`.  Vectors are modelled as lists of
reals.  -/

/-- Dot product of two vectors (componentwise product, summed). -/
def dotL (x y : List ℝ) : ℝ := (List.zipWith (fun a b => a * b) x y).sum

/-- Euclidean norm of a vector. -/
noncomputable def normL (x : List ℝ) : ℝ := Real.sqrt (dotL x x)

/-- Componentwise negation of a vector. -/
def negL (x : List ℝ) : List ℝ := x.map (fun a => -a)

open scoped Classical in
/-- `resonance(x, y)`: cosine similarity, with the degenerate zero-norm case
returning `0.0` instead of a division error. -/
noncomputable def resonance (x y : List ℝ) : ℝ :=
  if normL x = 0 ∨ normL y = 0 then 0
  else dotL x y / (normL x * normL y)

theorem dotL_cons (a b : ℝ) (as bs : List ℝ) :
    dotL (a :: as) (b :: bs) = a * b + dotL as bs := by
  simp [dotL]

theorem dotL_self_nonneg (x : List ℝ) : 0 ≤ dotL x x := by
  induction x with
  | nil => simp [dotL]
  | cons a as ih =>
    rw [dotL_cons]
    nlinarith [sq_nonneg a]

theorem dotL_self_pos (x : List ℝ) (hx : ∃ c ∈ x, c ≠ 0) : 0 < dotL x x := by
  induction x with
  | nil => simp at hx
  | cons a as ih =>
    rw [dotL_cons]
    rcases hx with ⟨c, hc, hcne⟩
    rcases List.mem_cons.mp hc with hca | hcas
    · subst hca
      nlinarith [dotL_self_nonneg as, mul_self_pos.mpr hcne]
    · have := ih ⟨c, hcas, hcne⟩
      nlinarith [sq_nonneg a]

theorem dotL_neg_right : ∀ x y : List ℝ, dotL x (negL y) = -dotL x y
  | [], _ => by simp [dotL, negL]
  | _ :: _, [] => by simp [dotL, negL]
  | a :: as, b :: bs => by
    have ih := dotL_neg_right as bs
    simp only [negL, List.map_cons] at ih ⊢
    rw [dotL_cons, dotL_cons, ih]
    ring

theorem negL_self_dot (y : List ℝ) : dotL (negL y) (negL y) = dotL y y := by
  induction y with
  | nil => simp [dotL, negL]
  | cons a as ih =>
    simp only [negL, List.map_cons] at ih ⊢
    rw [dotL_cons, dotL_cons, ih]
    ring

theorem normL_neg (y : List ℝ) : normL (negL y) = normL y := by
  rw [normL, normL, negL_self_dot]

theorem normL_nonneg (x : List ℝ) : 0 ≤ normL x := Real.sqrt_nonneg _

theorem normL_eq_zero_iff (x : List ℝ) : normL x = 0 ↔ dotL x x = 0 := by
  rw [normL, Real.sqrt_eq_zero (dotL_self_nonneg x)]

theorem normL_pos (x : List ℝ) (hx : ∃ c ∈ x, c ≠ 0) : 0 < normL x :=
  Real.sqrt_pos.mpr (dotL_self_pos x hx)

theorem mul_self_normL (x : List ℝ) : normL x * normL x = dotL x x :=
  Real.mul_self_sqrt (dotL_self_nonneg x)

/-- Discrete Cauchy–Schwarz over list dot products. -/
theorem dotL_sq_le : ∀ x y : List ℝ, (dotL x y) ^ 2 ≤ dotL x x * dotL y y
  | [], y => by simp [dotL]
  | _ :: _, [] => by simp [dotL]
  | a :: as, b :: bs => by
    have ih := dotL_sq_le as bs
    have hX := dotL_self_nonneg as
    have hY := dotL_self_nonneg bs
    rw [dotL_cons, dotL_cons, dotL_cons]
    rcases eq_or_lt_of_le hX with hX0 | hX0
    · have hD0 : dotL as bs = 0 := by nlinarith [sq_nonneg (dotL as bs)]
      rw [hD0, ← hX0]
      nlinarith [mul_nonneg (mul_self_nonneg a) hY]
    · nlinarith [sq_nonneg (a * dotL as bs - b * dotL as as),
        mul_nonneg (sq_nonneg a) (sub_nonneg.mpr ih),
        mul_pos hX0 hX0, sq_nonneg (a * b - dotL as bs)]

theorem abs_dotL_le (x y : List ℝ) : |dotL x y| ≤ normL x * normL y := by
  have h1 : |dotL x y| = Real.sqrt ((dotL x y) ^ 2) :=
    (Real.sqrt_sq_eq_abs _).symm
  rw [h1, normL, normL, ← Real.sqrt_mul (dotL_self_nonneg x)]
  exact Real.sqrt_le_sqrt (dotL_sq_le x y)

theorem resonance_of_ne_zero (x y : List ℝ) (hx : normL x ≠ 0)
    (hy : normL y ≠ 0) :
    resonance x y = dotL x y / (normL x * normL y) := by
  rw [resonance, if_neg (by tauto)]

theorem resonance_degenerate (x y : List ℝ)
    (h : normL x = 0 ∨ normL y = 0) : resonance x y = 0 := by
  rw [resonance, if_pos h]

theorem resonance_self (v : List ℝ) (hv : ∃ c ∈ v, c ≠ 0) :
    resonance v v = 1 := by
  have hpos := normL_pos v hv
  rw [resonance_of_ne_zero v v (ne_of_gt hpos) (ne_of_gt hpos),
    mul_self_normL, ← mul_self_normL]
  exact div_self (by positivity)

theorem resonance_neg_self (v : List ℝ) (hv : ∃ c ∈ v, c ≠ 0) :
    resonance v (negL v) = -1 := by
  have hpos := normL_pos v hv
  have hnneg : normL (negL v) ≠ 0 := by rw [normL_neg]; exact ne_of_gt hpos
  rw [resonance_of_ne_zero v (negL v) (ne_of_gt hpos) hnneg, normL_neg,
    dotL_neg_right, mul_self_normL, ← mul_self_normL]
  rw [neg_div]
  rw [div_self (by positivity)]

theorem resonance_bounded (x y : List ℝ) :
    -1 ≤ resonance x y ∧ resonance x y ≤ 1 := by
  by_cases h : normL x = 0 ∨ normL y = 0
  · rw [resonance_degenerate x y h]; norm_num
  · push_neg at h
    rw [resonance_of_ne_zero x y h.1 h.2]
    have hx := lt_of_le_of_ne (normL_nonneg x) (Ne.symm h.1)
    have hy := lt_of_le_of_ne (normL_nonneg y) (Ne.symm h.2)
    have hpos : 0 < normL x * normL y := mul_pos hx hy
    have habs := abs_dotL_le x y
    constructor
    · rw [le_div_iff hpos]
      have := abs_le.mp (le_trans (le_refl _) habs)
      nlinarith [abs_le.mp habs]
    · rw [div_le_one hpos]
      exact le_trans (le_abs_self _) habs

/-!  HDAG graph structure.

Modelled from the spec: §4.2 — `add_node(id, vector)` inserts or replaces
the node under `id`; `add_edge(source, target, weight)` fails with
`UnknownNode` if either endpoint does not exist, otherwise appends the
directed edge; `neighbors(id)` lists targets of outgoing edges in insertion
order.  Node vectors are kept as rational sequences (an exact model of the
float payload, which the graph layer never inspects).  -/

structure HDAG where
  nodes : List (String × List ℚ)
  edges : List (String × String × ℚ)
deriving DecidableEq

def HDAG.empty : HDAG := { nodes := [], edges := [] }

/-- A node id is present in the graph. -/
def hasNode (g : HDAG) (id : String) : Prop := id ∈ g.nodes.map Prod.fst

instance (g : HDAG) (id : String) : Decidable (hasNode g id) := by
  unfold hasNode; infer_instance

inductive HdagError where
  | unknownNode
deriving DecidableEq

/-- `add_node(id, vector)`: inserts a new node, or replaces the vector of an
existing node with the same id. -/
def add_node (g : HDAG) (id : String) (v : List ℚ) : HDAG :=
  if hasNode g id then
    { g with nodes := g.nodes.map (fun p => if p.1 = id then (id, v) else p) }
  else
    { g with nodes := g.nodes ++ [(id, v)] }

/-- `add_edge(source, target, weight)`: `UnknownNode` when either endpoint is
absent, otherwise the directed edge is appended. -/
def add_edge (g : HDAG) (src dst : String) (w : ℚ) :
    Except HdagError HDAG :=
  if hasNode g src ∧ hasNode g dst then
    Except.ok { g with edges := g.edges ++ [(src, dst, w)] }
  else
    Except.error HdagError.unknownNode

/-- `neighbors(id)`: ordered targets of outgoing edges; `UnknownNode` when
`id` is absent. -/
def neighbors (g : HDAG) (id : String) : Except HdagError (List String) :=
  if hasNode g id then
    Except.ok ((g.edges.filter (fun e => e.1 = id)).map (fun e => e.2.1))
  else
    Except.error HdagError.unknownNode

/-- A construction step of an HDAG. -/
inductive HOp where
  | node (id : String) (v : List ℚ)
  | edge (src dst : String) (w : ℚ)

/-- Apply one step; a failing `add_edge` leaves the graph unchanged. -/
def applyOp (g : HDAG) : HOp → HDAG
  | HOp.node id v => add_node g id v
  | HOp.edge src dst w =>
      match add_edge g src dst w with
      | Except.ok g' => g'
      | Except.error _ => g

/-- The graph built from a sequence of construction steps. -/
def buildH (ops : List HOp) : HDAG := ops.foldl applyOp HDAG.empty

/-- The id was at some point added via `add_node`. -/
def wasAdded (ops : List HOp) (id : String) : Prop :=
  ∃ v, HOp.node id v ∈ ops

theorem hasNode_add_node (g : HDAG) (id id' : String) (v : List ℚ) :
    hasNode (add_node g id' v) id ↔ hasNode g id ∨ id' = id := by
  unfold add_node
  by_cases hmem : hasNode g id'
  · rw [if_pos hmem]
    unfold hasNode at *
    simp only [List.map_map, List.mem_map] at *
    constructor
    · rintro ⟨p, hp, hkey⟩
      by_cases hpid : p.1 = id'
      · simp [hpid] at hkey
        exact Or.inr hkey
      · simp [hpid] at hkey
        exact Or.inl ⟨p, hp, hkey⟩
    · rintro (⟨p, hp, hkey⟩ | hid)
      · by_cases hpid : p.1 = id'
        · refine ⟨p, hp, ?_⟩
          simp only [Function.comp_apply, if_pos hpid]
          exact hpid.symm.trans hkey
        · refine ⟨p, hp, ?_⟩
          simp only [Function.comp_apply, if_neg hpid]
          exact hkey
      · obtain ⟨p, hp, hkey⟩ := hmem
        refine ⟨p, hp, ?_⟩
        simp only [Function.comp_apply, if_pos hkey]
        exact hid
  · rw [if_neg hmem]
    unfold hasNode at *
    simp only [List.map_append, List.mem_append, List.map_cons,
      List.map_nil, List.mem_singleton]
    constructor
    · rintro (h | h)
      · exact Or.inl h
      · exact Or.inr h.symm
    · rintro (h | h)
      · exact Or.inl h
      · exact Or.inr h.symm

theorem hasNode_applyOp_edge (g : HDAG) (src dst : String) (w : ℚ)
    (id : String) :
    hasNode (applyOp g (HOp.edge src dst w)) id ↔ hasNode g id := by
  show hasNode
      (match add_edge g src dst w with
        | Except.ok g' => g'
        | Except.error _ => g) id ↔ hasNode g id
  unfold add_edge
  by_cases h : hasNode g src ∧ hasNode g dst
  · rw [if_pos h]
    exact Iff.rfl
  · rw [if_neg h]

theorem hasNode_foldl (ops : List HOp) :
    ∀ (g : HDAG) (id : String),
      hasNode (ops.foldl applyOp g) id ↔ hasNode g id ∨ wasAdded ops id := by
  induction ops with
  | nil =>
    intro g id
    simp [wasAdded]
  | cons op rest ih =>
    intro g id
    rw [List.foldl_cons, ih]
    cases op with
    | node id' v =>
      show hasNode (add_node g id' v) id ∨ _ ↔ _
      rw [hasNode_add_node]
      unfold wasAdded
      simp only [List.mem_cons, HOp.node.injEq]
      constructor
      · rintro ((h | h) | ⟨v', hv'⟩)
        · exact Or.inl h
        · exact Or.inr ⟨v, Or.inl ⟨h.symm, rfl⟩⟩
        · exact Or.inr ⟨v', Or.inr hv'⟩
      · rintro (h | ⟨v', (⟨hid, -⟩ | hv')⟩)
        · exact Or.inl (Or.inl h)
        · exact Or.inl (Or.inr hid.symm)
        · exact Or.inr ⟨v', hv'⟩
    | edge src dst w =>
      rw [hasNode_applyOp_edge]
      unfold wasAdded
      simp only [List.mem_cons]
      constructor
      · rintro (h | ⟨v', hv'⟩)
        · exact Or.inl h
        · exact Or.inr ⟨v', Or.inr hv'⟩
      · rintro (h | ⟨v', (hfalse | hv')⟩)
        · exact Or.inl h
        · cases hfalse
        · exact Or.inr ⟨v', hv'⟩

theorem hasNode_buildH (ops : List HOp) (id : String) :
    hasNode (buildH ops) id ↔ wasAdded ops id := by
  rw [buildH, hasNode_foldl]
  simp [HDAG.empty, hasNode]

/-!  Temporal Integrity Capsule.

Modelled from the spec: §4.3 — `build(model_hash, ledger_ref, hdag_snapshot)`
digests `{model_hash, ledger_ref, hdag_digest, created_at}` into the capsule
id; `verify` recomputes the id (tamper check), then re-resolves `ledger_ref`
against the live ledger and recomputes the HDAG digest (staleness check),
returning a tri-state result.  -/

inductive CapsuleCheck where
  | valid
  | tamperedCapsule
  | staleReference
deriving DecidableEq

structure Capsule where
  id : Data
  model_hash : Data
  ledger_ref : Data
  hdag_ref : Data
  created_at : Nat
deriving DecidableEq

/-- Canonical encoding of every capsule field except `id` itself. -/
def capsuleContent (c : Capsule) : Data :=
  Data.pair c.model_hash
    (Data.pair c.ledger_ref
      (Data.pair c.hdag_ref (Data.nat c.created_at)))

/-- Canonical encoding of a full HDAG snapshot. -/
def hdagData (g : HDAG) : Data :=
  Data.pair
    (encodeList (fun p => Data.pair (Data.str p.1) (encodeList encodeRat p.2))
      g.nodes)
    (encodeList
      (fun e => Data.pair (Data.str e.1)
        (Data.pair (Data.str e.2.1) (encodeRat e.2.2)))
      g.edges)

/-- `build(model_hash, ledger_ref, hdag_snapshot)` at time `t`. -/
def Capsule.build (hashF : Data → Data) (mh lref : Data) (g : HDAG)
    (t : Nat) : Capsule :=
  let c0 : Capsule :=
    { id := Data.nil, model_hash := mh, ledger_ref := lref,
      hdag_ref := hashF (hdagData g), created_at := t }
  { c0 with id := hashF (capsuleContent c0) }

/-- The capsule's ledger reference still resolves to a block of the live
chain. -/
def resolvesLedger (c : Capsule) (st : LedgerState) : Prop :=
  ∃ b ∈ st.chain, b.hash = c.ledger_ref

instance (c : Capsule) (st : LedgerState) : Decidable (resolvesLedger c st) := by
  unfold resolvesLedger; infer_instance

/-- `verify(capsule, live_ledger, live_hdag)`: tri-state integrity check. -/
def Capsule.verify (hashF : Data → Data) (c : Capsule) (st : LedgerState)
    (g : HDAG) : CapsuleCheck :=
  if c.id ≠ hashF (capsuleContent c) then CapsuleCheck.tamperedCapsule
  else if ¬ resolvesLedger c st ∨ c.hdag_ref ≠ hashF (hdagData g) then
    CapsuleCheck.staleReference
  else CapsuleCheck.valid

/-!  ZKML proof layer.

Modelled from the spec: §3/§4.4 — a proof commits to a statement and a
witness; `proof_blob = digest(statement || witness_commitment)`, and
`verify(statement, proof_blob, recomputed_witness_commitment)` succeeds iff
recomputing the digest reproduces `proof_blob`.  The private witness is a
sequence of values, modelled as rationals.  -/

structure ZkProof where
  statement : String
  proof_blob : Data
deriving DecidableEq

/-- Digest of the private witness. -/
def witnessCommitment (hashF : Data → Data) (w : List ℚ) : Data :=
  hashF (encodeList encodeRat w)

/-- `commit`: builds the proof blob over the statement and the witness
commitment; the raw witness never appears in the output. -/
def Proof.commit (hashF : Data → Data) (stmt : String) (w : List ℚ) :
    ZkProof :=
  { statement := stmt,
    proof_blob := hashF (Data.pair (Data.str stmt)
      (witnessCommitment hashF w)) }

/-- `verify(statement, proof_blob, recomputed_witness_commitment)`. -/
def Proof.verify (hashF : Data → Data) (stmt : String) (blob : Data)
    (wc : Data) : Bool :=
  blob = hashF (Data.pair (Data.str stmt) wc)

/-!  Dashboard frontend (translated from the TypeScript sources under
`src/dashboard/frontend/src/components`).  -/

/-- Field names of the `LedgerBlock` type declared by the dashboard's
LedgerView component (`index`, `hash`, optional `prev_hash`, optional
`projection`, optional `transactions`). -/
def ledgerBlockFields : List String :=
  ["index", "hash", "prev_hash", "projection", "transactions"]

/-- Field names of the `LedgerResponse` type declared by the dashboard. -/
def ledgerResponseFields : List String := ["chain", "pending"]

/-- Modelled from the spec: §6 requires every exchanged block to carry
`index`, `hash`, `prev_hash`, `transactions` and `timestamp`. -/
def specLedgerBlockFields : List String :=
  ["index", "hash", "prev_hash", "transactions", "timestamp"]

namespace ZkmlView

/-- Decimal digit test, as JavaScript's number grammar uses it. -/
def isDigitCh (ch : Char) : Bool := '0' ≤ ch && ch ≤ '9'

def digitVal (ch : Char) : Nat := ch.toNat - '0'.toNat

def digitsToNat (ds : List Char) : Nat :=
  ds.foldl (fun acc ch => 10 * acc + digitVal ch) 0

/-- Exponent tail of a JavaScript float literal (after `e`/`E`); an empty
digit run contributes exponent `0`, matching the longest-valid-prefix rule
of `Number.parseFloat`. -/
def parseExpTail (cs : List Char) : Int :=
  let (esign, cs1) : Int × List Char :=
    match cs with
    | '-' :: rest => (-1, rest)
    | '+' :: rest => (1, rest)
    | _ => (1, cs)
  let ds := cs1.takeWhile isDigitCh
  if ds.isEmpty then 0 else esign * (digitsToNat ds : Int)

/-- Model of JavaScript's `Number.parseFloat` on an already-trimmed entry:
parses the longest prefix of the form `[+-]digits[.digits][(e|E)[+-]digits]`
and returns `none` where JavaScript returns `NaN` (no leading numeric
prefix).  Values are exact rationals; `Infinity` and float rounding are
outside the model. -/
def jsParseFloat (s : String) : Option ℚ :=
  let cs := s.toList
  let (sign, cs1) : ℚ × List Char :=
    match cs with
    | '-' :: rest => (-1, rest)
    | '+' :: rest => (1, rest)
    | _ => (1, cs)
  let ip := cs1.takeWhile isDigitCh
  let r1 := cs1.dropWhile isDigitCh
  let (fp, r2) : List Char × List Char :=
    match r1 with
    | '.' :: rest => (rest.takeWhile isDigitCh, rest.dropWhile isDigitCh)
    | _ => ([], r1)
  if ip.isEmpty && fp.isEmpty then none
  else
    let mantissa : ℚ :=
      (digitsToNat ip : ℚ) + (digitsToNat fp : ℚ) / (10 : ℚ) ^ fp.length
    let expVal : Int :=
      match r2 with
      | 'e' :: rest => parseExpTail rest
      | 'E' :: rest => parseExpTail rest
      | _ => 0
    some (sign * mantissa * (10 : ℚ) ^ expVal)

/-- Split a character sequence at every comma (structural model of
JavaScript's `split(',')`). -/
def splitComma : List Char → List Char → List (List Char)
  | [], acc => [acc.reverse]
  | ch :: rest, acc =>
      if ch = ',' then acc.reverse :: splitComma rest []
      else splitComma rest (ch :: acc)

/-- Whitespace test used by `trim`. -/
def isWS (ch : Char) : Bool :=
  ch = ' ' ∨ ch = '\t' ∨ ch = '\n' ∨ ch = '\r'

/-- Strip leading and trailing whitespace (model of JavaScript's `trim`). -/
def trimChars (cs : List Char) : List Char :=
  ((cs.dropWhile isWS).reverse.dropWhile isWS).reverse

/-- The comma-separated entries of the input text: split on commas, trim
each item, keep the non-empty ones. -/
def splitEntries (value : String) : List String :=
  ((splitComma value.toList []).map
      (fun cs => String.mk (trimChars cs))).filter
    (fun item => item.length > 0)

/-- `parseVector` of the ZKML panel: split, trim, drop empties, parse each
entry, drop the entries that did not parse as numbers (`NaN` in the
source). -/
def parseVector (value : String) : List ℚ :=
  (((splitEntries value).map jsParseFloat).filter Option.isSome).reduceOption

/-- The `ProofPayload` record of the ZKML panel. -/
structure ProofPayload where
  input : List ℚ
  prediction : Option ℚ
  proof : String
  statement : String
  verified : Bool
deriving DecidableEq

def defaultProof : ProofPayload :=
  { input := [], prediction := none, proof := "", statement := "",
    verified := false }

/-- Outcome of one `handleSubmit` run: the resulting proof state, the error
state, and whether the inference / verification requests were issued. -/
structure SubmitResult where
  proof : ProofPayload
  error : Option String
  sentInfer : Bool
  sentVerify : Bool
deriving DecidableEq

/-- The `handleSubmit` handler of the ZKML panel.  `prev` is the proof state
before the submit; `inferResp` is the `/zkml/zk_infer` response (`none` for
a non-ok response, whose status text is `statusText`); `verifyResp` is what
`/zkml/verify` would answer if called (`none` for a non-ok response,
`some valid` otherwise). -/
def handleSubmit (prev : ProofPayload) (text : String) (statusText : String)
    (inferResp : Option ProofPayload) (verifyResp : Option Bool) :
    SubmitResult :=
  let vector := parseVector text
  if vector = [] then
    { proof := prev, error := some "Provide at least one numeric value.",
      sentInfer := false, sentVerify := false }
  else
    match inferResp with
    | none =>
        { proof := prev,
          error := some ("Inference failed: " ++ statusText),
          sentInfer := true, sentVerify := false }
    | some payload =>
        if payload.statement ≠ "" ∧ payload.proof ≠ "" then
          let verified :=
            match verifyResp with
            | some v => v
            | none => false
          { proof := { input := vector, prediction := payload.prediction,
                       proof := payload.proof,
                       statement := payload.statement,
                       verified := verified },
            error := none, sentInfer := true, sentVerify := true }
        else
          { proof := { input := vector, prediction := payload.prediction,
                       proof := payload.proof,
                       statement := payload.statement,
                       verified := false },
            error := none, sentInfer := true, sentVerify := false }

/-- The label the panel renders for the verified flag. -/
def verifiedLabel (p : ProofPayload) : String :=
  if p.verified then "valid" else "unverified"

theorem filter_isSome_reduceOption {α β : Type} (f : α → Option β) :
    ∀ l : List α, ((l.map f).filter Option.isSome).reduceOption
      = l.filterMap f := by
  intro l
  induction l with
  | nil => rfl
  | cons a as ih =>
    cases h : f a with
    | none =>
      simp only [List.reduceOption] at ih
      simp [List.reduceOption, List.filterMap_cons, h, ih]
    | some b =>
      simp only [List.map_cons, List.filter_cons, h, Option.isSome_some,
        List.filterMap_cons]
      rw [← ih]
      simp [List.reduceOption, h]

end ZkmlView

/-!  Helper facts for the worked resonance example and the capsule layer. -/

theorem dot_sensor_feature :
    dotL [(1 : ℝ), 0.5, 0.1] [0.8, 0.55, 0.05] = 1.08 := by
  norm_num [dotL]

theorem resonanceExample_eq :
    resonance [(1 : ℝ), 0.5, 0.1] [0.8, 0.55, 0.05]
      = 1.08 / Real.sqrt 1.1907 := by
  have hxx : dotL [(1 : ℝ), 0.5, 0.1] [(1 : ℝ), 0.5, 0.1] = 1.26 := by
    norm_num [dotL]
  have hyy : dotL [(0.8 : ℝ), 0.55, 0.05] [(0.8 : ℝ), 0.55, 0.05] = 0.945 := by
    norm_num [dotL]
  have hnx : normL [(1 : ℝ), 0.5, 0.1] = Real.sqrt 1.26 := by rw [normL, hxx]
  have hny : normL [(0.8 : ℝ), 0.55, 0.05] = Real.sqrt 0.945 := by
    rw [normL, hyy]
  have hnx0 : normL [(1 : ℝ), 0.5, 0.1] ≠ 0 := by
    rw [hnx]; exact Real.sqrt_ne_zero'.mpr (by norm_num)
  have hny0 : normL [(0.8 : ℝ), 0.55, 0.05] ≠ 0 := by
    rw [hny]; exact Real.sqrt_ne_zero'.mpr (by norm_num)
  rw [resonance_of_ne_zero _ _ hnx0 hny0, dot_sensor_feature, hnx, hny,
    ← Real.sqrt_mul (by norm_num : (0 : ℝ) ≤ 1.26)]
  norm_num

theorem resonanceExample_bounds :
    0.9887 < (1.08 : ℝ) / Real.sqrt 1.1907 ∧
      (1.08 : ℝ) / Real.sqrt 1.1907 < 0.9907 := by
  have hs : (0 : ℝ) < Real.sqrt 1.1907 := Real.sqrt_pos.mpr (by norm_num)
  have hup : Real.sqrt 1.1907 < 1.08 / 0.9887 := by
    rw [Real.sqrt_lt' (by norm_num)]
    norm_num
  have hlo : (1.08 : ℝ) / 0.9907 < Real.sqrt 1.1907 := by
    rw [Real.lt_sqrt (by norm_num)]
    norm_num
  constructor
  · rw [lt_div_iff hs]
    nlinarith
  · rw [div_lt_iff hs]
    nlinarith

theorem capsuleContent_build (hashF : Data → Data) (mh lref : Data)
    (g : HDAG) (t : Nat) :
    capsuleContent (Capsule.build hashF mh lref g t)
      = Data.pair mh (Data.pair lref
          (Data.pair (hashF (hdagData g)) (Data.nat t))) := rfl

theorem build_id (hashF : Data → Data) (mh lref : Data) (g : HDAG)
    (t : Nat) :
    (Capsule.build hashF mh lref g t).id
      = hashF (capsuleContent (Capsule.build hashF mh lref g t)) := rfl

/-- Concrete reachable ledger used as the tamper-detection fixture. -/
def exLedger : LedgerState :=
  create_block id 5
    (add_transaction [("sensor", "lumen")] (LedgerState.init id))

/-- The sealed (index 1) block of the fixture ledger. -/
def exBlock1 : Block := (exLedger.chain[1]?).getD (genesisBlock id)

/-!  Claims.  -/

/-- C1: every chain state reachable solely through `add_transaction` and
`create_block` from the synthetic genesis state passes `validate_chain`
(for any digest function).  In this embedding `validate_chain` is a pure
function of the state — it returns a result and produces no new state — so
it cannot mutate the chain or the pending queue. -/
theorem claim_reachable_chain_validates (hashF : Data → Data)
    (st : LedgerState) (h : Reachable hashF st) :
    validate_chain hashF st = none :=
  reachable_validates hashF st h

/-- C1 witness: the ledger obtained by adding one transaction and sealing
one block is reachable and validates. -/
theorem claim_reachable_chain_validates_witness :
    Reachable id
      (create_block id 5
        (add_transaction [("sensor", "lumen")] (LedgerState.init id)))
    ∧ validate_chain id
        (create_block id 5
          (add_transaction [("sensor", "lumen")] (LedgerState.init id)))
      = none :=
  have hr : Reachable id
      (create_block id 5
        (add_transaction [("sensor", "lumen")] (LedgerState.init id))) :=
    Reachable.create 5 (Reachable.add _ Reachable.init)
  ⟨hr, claim_reachable_chain_validates id _ hr⟩

/-- C2: `validate_chain` reports `some k` exactly when position `k` is the
first index whose stored hash differs from the recomputed digest or whose
`prev_hash` differs from the previous block's hash; and for any
collision-free digest, out-of-band mutation of the transactions of block
`i` of a valid chain makes `validate_chain` fail at exactly index `i`,
reported as a typed `Option` result. -/
theorem claim_validate_first_failure (hashF : Data → Data)
    (hinj : Function.Injective hashF) (st : LedgerState) :
    (∀ k, validate_chain hashF st = some k ↔
        (badAt hashF st.chain k ∧ ∀ j, j < k → ¬ badAt hashF st.chain j))
    ∧ (validate_chain hashF st = none →
        ∀ (i : Nat) (b : Block) (txs' : List Tx),
          st.chain[i]? = some b → txs' ≠ b.transactions →
            validate_chain hashF
              { st with
                  chain := st.chain.set i { b with transactions := txs' } }
              = some i) := by
  constructor
  · intro k
    rw [validate_chain, validateFrom_eq_some_iff hashF st.chain none 0 k]
    constructor
    · rintro ⟨j, hk, hbad, hmin⟩
      have hkj : k = j := by omega
      subst hkj
      exact ⟨hbad, hmin⟩
    · rintro ⟨hbad, hmin⟩
      exact ⟨k, by omega, hbad, hmin⟩
  · intro hval i b txs' hb hne
    exact validate_chain_set_transactions hashF hinj st hval i b txs' hb hne

/-- C2 witness: zeroing the transactions of block 1 of the concrete fixture
ledger makes `validate_chain` report index 1. -/
theorem claim_validate_first_failure_witness :
    validate_chain id
      { exLedger with
          chain := exLedger.chain.set 1 { exBlock1 with transactions := [] } }
      = some 1 :=
  (claim_validate_first_failure id (fun _ _ hab => hab) exLedger).2
    (by decide) 1 exBlock1 [] (by decide) (by decide)

/-- C3: `resonance` is the cosine similarity `dot/(‖x‖·‖y‖)` away from the
degenerate case; it returns `0` whenever either operand has zero norm; for
every non-zero vector `v`, `resonance v v = 1` and `resonance v (-v) = -1`;
and for equal-length vectors the result always lies in `[-1, 1]`. -/
theorem claim_resonance_cosine :
    (∀ x y : List ℝ, normL x ≠ 0 → normL y ≠ 0 →
        resonance x y = dotL x y / (normL x * normL y))
    ∧ (∀ x y : List ℝ, normL x = 0 ∨ normL y = 0 → resonance x y = 0)
    ∧ (∀ v : List ℝ, (∃ c ∈ v, c ≠ 0) →
        resonance v v = 1 ∧ resonance v (negL v) = -1)
    ∧ (∀ x y : List ℝ, x.length = y.length →
        -1 ≤ resonance x y ∧ resonance x y ≤ 1) :=
  ⟨resonance_of_ne_zero, resonance_degenerate,
    fun v hv => ⟨resonance_self v hv, resonance_neg_self v hv⟩,
    fun x y _ => resonance_bounded x y⟩

/-- C3 witness: concrete instances of the self, negated-self, degenerate and
boundedness clauses. -/
theorem claim_resonance_cosine_witness :
    resonance [(1 : ℝ), 2] [1, 2] = 1
    ∧ resonance [(1 : ℝ), 2] (negL [1, 2]) = -1
    ∧ resonance ([] : List ℝ) [3] = 0
    ∧ (-1 ≤ resonance [(1 : ℝ)] [2] ∧ resonance [(1 : ℝ)] [2] ≤ 1) := by
  obtain ⟨hcos, hzero, hself, hbound⟩ := claim_resonance_cosine
  have h12 : ∃ c ∈ [(1 : ℝ), 2], c ≠ 0 := ⟨1, by simp, one_ne_zero⟩
  refine ⟨(hself _ h12).1, (hself _ h12).2, ?_, hbound _ _ rfl⟩
  apply hzero
  left
  simp [normL, dotL]

/-- C4 counterexample: the resonance of the quick-example vectors
`[1, 0.5, 0.1]` and `[0.8, 0.55, 0.05]` is NOT within `1e-3` of `0.996`
(it is `1.08 / √1.1907 ≈ 0.98974`). -/
theorem claim_example_resonance_counterexample :
    ¬ |resonance [(1 : ℝ), 0.5, 0.1] [0.8, 0.55, 0.05] - 0.996| ≤ 1e-3 := by
  intro h
  rw [resonanceExample_eq, abs_le] at h
  obtain ⟨h1, h2⟩ := resonanceExample_bounds
  have := h.1
  norm_num at this h2 ⊢
  linarith

/-- C4 (amended): the resonance of the quick-example vectors equals
`1.08 / √1.1907` and is within `1e-3` of `0.9897`, the actual cosine
similarity of the two vectors. -/
theorem claim_example_resonance_value :
    resonance [(1 : ℝ), 0.5, 0.1] [0.8, 0.55, 0.05] = 1.08 / Real.sqrt 1.1907
    ∧ |resonance [(1 : ℝ), 0.5, 0.1] [0.8, 0.55, 0.05] - 0.9897| ≤ 1e-3 := by
  obtain ⟨h1, h2⟩ := resonanceExample_bounds
  refine ⟨resonanceExample_eq, ?_⟩
  rw [resonanceExample_eq, abs_le]
  norm_num at h1 h2 ⊢
  constructor <;> linarith

/-- C5: proof verification succeeds exactly when the digest of the statement
together with the recomputed witness commitment reproduces the proof blob;
verification with the witness the prover committed to succeeds, and for a
collision-free digest, verification with any different witness fails. -/
theorem claim_proof_verify (hashF : Data → Data)
    (hinj : Function.Injective hashF) :
    (∀ (stmt : String) (blob wc : Data),
        Proof.verify hashF stmt blob wc = true ↔
          hashF (Data.pair (Data.str stmt) wc) = blob)
    ∧ (∀ (stmt : String) (w : List ℚ),
        Proof.verify hashF stmt (Proof.commit hashF stmt w).proof_blob
          (witnessCommitment hashF w) = true)
    ∧ (∀ (stmt : String) (w w' : List ℚ), w ≠ w' →
        Proof.verify hashF stmt (Proof.commit hashF stmt w).proof_blob
          (witnessCommitment hashF w') = false) := by
  refine ⟨?_, ?_, ?_⟩
  · intro stmt blob wc
    simp [Proof.verify, eq_comm]
  · intro stmt w
    simp [Proof.verify, Proof.commit]
  · intro stmt w w' hne
    simp only [Proof.verify, Proof.commit]
    apply decide_eq_false
    intro hcontra
    have h1 := hinj hcontra
    simp only [Data.pair.injEq, true_and] at h1
    have h2 := hinj h1
    exact hne (encodeList_injective encodeRat encodeRat_injective h2)

/-- C5 witness: with the identity digest, verifying the committed witness
`[1]` succeeds and verifying the one-value-off witness `[2]` fails. -/
theorem claim_proof_verify_witness :
    Proof.verify id "m yields p"
      (Proof.commit id "m yields p" [1]).proof_blob
      (witnessCommitment id [1]) = true
    ∧ Proof.verify id "m yields p"
        (Proof.commit id "m yields p" [1]).proof_blob
        (witnessCommitment id [2]) = false := by
  obtain ⟨-, hsame, hdiff⟩ := claim_proof_verify id (fun _ _ hab => hab)
  exact ⟨hsame "m yields p" [1], hdiff "m yields p" [1] [2] (by decide)⟩

/-- C6: capsule verification is tri-state — `valid` immediately after
`build` against the live ledger and HDAG; `tamperedCapsule` when any single
field of the built capsule is altered (for a collision-free digest); and
`staleReference` when the referenced ledger block is no longer present. -/
theorem claim_capsule_tristate (hashF : Data → Data)
    (hinj : Function.Injective hashF) (mh : Data) (st : LedgerState)
    (g : HDAG) (t : Nat) (b : Block) (hb : b ∈ st.chain) :
    Capsule.verify hashF (Capsule.build hashF mh b.hash g t) st g
        = CapsuleCheck.valid
    ∧ (∀ x : Data, x ≠ (Capsule.build hashF mh b.hash g t).id →
        Capsule.verify hashF
          { id := x, model_hash := mh, ledger_ref := b.hash,
            hdag_ref := hashF (hdagData g), created_at := t } st g
          = CapsuleCheck.tamperedCapsule)
    ∧ (∀ x : Data, x ≠ mh →
        Capsule.verify hashF
          { id := (Capsule.build hashF mh b.hash g t).id, model_hash := x,
            ledger_ref := b.hash, hdag_ref := hashF (hdagData g),
            created_at := t } st g
          = CapsuleCheck.tamperedCapsule)
    ∧ (∀ x : Data, x ≠ b.hash →
        Capsule.verify hashF
          { id := (Capsule.build hashF mh b.hash g t).id, model_hash := mh,
            ledger_ref := x, hdag_ref := hashF (hdagData g),
            created_at := t } st g
          = CapsuleCheck.tamperedCapsule)
    ∧ (∀ x : Data, x ≠ hashF (hdagData g) →
        Capsule.verify hashF
          { id := (Capsule.build hashF mh b.hash g t).id, model_hash := mh,
            ledger_ref := b.hash, hdag_ref := x, created_at := t } st g
          = CapsuleCheck.tamperedCapsule)
    ∧ (∀ x : Nat, x ≠ t →
        Capsule.verify hashF
          { id := (Capsule.build hashF mh b.hash g t).id, model_hash := mh,
            ledger_ref := b.hash, hdag_ref := hashF (hdagData g),
            created_at := x } st g
          = CapsuleCheck.tamperedCapsule)
    ∧ (∀ (st' : LedgerState) (g' : HDAG),
        ¬ resolvesLedger (Capsule.build hashF mh b.hash g t) st' →
          Capsule.verify hashF (Capsule.build hashF mh b.hash g t) st' g'
            = CapsuleCheck.staleReference) := by
  have hid : (Capsule.build hashF mh b.hash g t).id
      = hashF (Data.pair mh (Data.pair b.hash
          (Data.pair (hashF (hdagData g)) (Data.nat t)))) := rfl
  refine ⟨?_, ?_, ?_, ?_, ?_, ?_, ?_⟩
  · unfold Capsule.verify
    rw [if_neg (fun hne => hne (build_id hashF mh b.hash g t))]
    rw [if_neg ?_]
    rintro (hns | hne)
    · exact hns ⟨b, hb, rfl⟩
    · exact hne rfl
  · intro x hx
    unfold Capsule.verify
    rw [if_pos ?_]
    show x ≠ hashF (capsuleContent _)
    exact fun heq => hx (heq.trans (build_id hashF mh b.hash g t).symm)
  · intro x hx
    unfold Capsule.verify
    rw [if_pos ?_]
    show (Capsule.build hashF mh b.hash g t).id ≠ hashF (capsuleContent _)
    rw [hid]
    intro heq
    have h1 := hinj heq
    simp only [capsuleContent, Data.pair.injEq] at h1
    exact hx h1.1.symm
  · intro x hx
    unfold Capsule.verify
    rw [if_pos ?_]
    show (Capsule.build hashF mh b.hash g t).id ≠ hashF (capsuleContent _)
    rw [hid]
    intro heq
    have h1 := hinj heq
    simp only [capsuleContent, Data.pair.injEq] at h1
    exact hx h1.2.1.symm
  · intro x hx
    unfold Capsule.verify
    rw [if_pos ?_]
    show (Capsule.build hashF mh b.hash g t).id ≠ hashF (capsuleContent _)
    rw [hid]
    intro heq
    have h1 := hinj heq
    simp only [capsuleContent, Data.pair.injEq] at h1
    exact hx h1.2.2.1.symm
  · intro x hx
    unfold Capsule.verify
    rw [if_pos ?_]
    show (Capsule.build hashF mh b.hash g t).id ≠ hashF (capsuleContent _)
    rw [hid]
    intro heq
    have h1 := hinj heq
    simp only [capsuleContent, Data.pair.injEq, Data.nat.injEq] at h1
    exact hx h1.2.2.2.symm
  · intro st' g' hstale
    unfold Capsule.verify
    rw [if_neg (fun hne => hne (build_id hashF mh b.hash g t))]
    rw [if_pos (Or.inl hstale)]

/-- C6 witness: with the identity digest, a capsule built over the genesis
block verifies `valid`; altering its model hash yields `tamperedCapsule`;
resetting the chain yields `staleReference`. -/
theorem claim_capsule_tristate_witness :
    Capsule.verify id
      (Capsule.build id Data.nil (genesisBlock id).hash HDAG.empty 7)
      (LedgerState.init id) HDAG.empty = CapsuleCheck.valid
    ∧ Capsule.verify id
        { id := (Capsule.build id Data.nil (genesisBlock id).hash
            HDAG.empty 7).id,
          model_hash := Data.nat 1, ledger_ref := (genesisBlock id).hash,
          hdag_ref := id (hdagData HDAG.empty), created_at := 7 }
        (LedgerState.init id) HDAG.empty = CapsuleCheck.tamperedCapsule
    ∧ Capsule.verify id
        (Capsule.build id Data.nil (genesisBlock id).hash HDAG.empty 7)
        { chain := [], pending := [] } HDAG.empty
        = CapsuleCheck.staleReference := by
  obtain ⟨hvalid, -, htamper, -, -, -, hstale⟩ :=
    claim_capsule_tristate id (fun _ _ hab => hab) Data.nil
      (LedgerState.init id) HDAG.empty 7 (genesisBlock id) (by decide)
  exact ⟨hvalid, htamper (Data.nat 1) (by decide),
    hstale { chain := [], pending := [] } HDAG.empty (by decide)⟩

/-- C7: `add_edge` fails with `UnknownNode` — leaving the graph unchanged —
whenever either endpoint is absent, in particular whenever either endpoint
id was never added via `add_node` during the construction of the graph; when
both endpoints exist it appends the directed edge. -/
theorem claim_add_edge_unknown_node :
    (∀ (g : HDAG) (src dst : String) (w : ℚ),
        (¬ hasNode g src ∨ ¬ hasNode g dst) →
          add_edge g src dst w = Except.error HdagError.unknownNode
          ∧ applyOp g (HOp.edge src dst w) = g)
    ∧ (∀ (g : HDAG) (src dst : String) (w : ℚ),
        hasNode g src → hasNode g dst →
          add_edge g src dst w
            = Except.ok { g with edges := g.edges ++ [(src, dst, w)] })
    ∧ (∀ (ops : List HOp) (src dst : String) (w : ℚ),
        (¬ wasAdded ops src ∨ ¬ wasAdded ops dst) →
          add_edge (buildH ops) src dst w
            = Except.error HdagError.unknownNode) := by
  have hfail : ∀ (g : HDAG) (src dst : String) (w : ℚ),
      (¬ hasNode g src ∨ ¬ hasNode g dst) →
        add_edge g src dst w = Except.error HdagError.unknownNode := by
    intro g src dst w h
    unfold add_edge
    rw [if_neg (by tauto)]
  refine ⟨?_, ?_, ?_⟩
  · intro g src dst w h
    refine ⟨hfail g src dst w h, ?_⟩
    show (match add_edge g src dst w with
          | Except.ok g' => g'
          | Except.error _ => g) = g
    rw [hfail g src dst w h]
  · intro g src dst w h1 h2
    unfold add_edge
    rw [if_pos ⟨h1, h2⟩]
  · intro ops src dst w h
    apply hfail
    rcases h with h | h
    · exact Or.inl (fun hc => h ((hasNode_buildH ops src).mp hc))
    · exact Or.inr (fun hc => h ((hasNode_buildH ops dst).mp hc))

/-- C7 witness: adding an edge towards the never-added id `feature` fails
with `UnknownNode`; after adding both nodes the edge is appended. -/
theorem claim_add_edge_unknown_node_witness :
    add_edge (buildH [HOp.node "sensor" [1, 1/2, 1/10]]) "sensor" "feature"
        (9/10) = Except.error HdagError.unknownNode
    ∧ add_edge (buildH [HOp.node "sensor" [1, 1/2, 1/10],
          HOp.node "feature" [4/5, 11/20, 1/20]]) "sensor" "feature" (9/10)
        = Except.ok
            { buildH [HOp.node "sensor" [1, 1/2, 1/10],
                HOp.node "feature" [4/5, 11/20, 1/20]] with
              edges := [("sensor", "feature", 9/10)] } := by
  obtain ⟨-, hok, hmiss⟩ := claim_add_edge_unknown_node
  constructor
  · apply hmiss
    right
    rintro ⟨v, hv⟩
    simp [List.mem_singleton] at hv
  · have h := hok (buildH [HOp.node "sensor" [1, 1/2, 1/10],
        HOp.node "feature" [4/5, 11/20, 1/20]]) "sensor" "feature" (9/10)
      (by decide) (by decide)
    simpa [buildH, applyOp, add_node, HDAG.empty, hasNode] using h

theorem handleSubmit_some_eval (prev : ZkmlView.ProofPayload)
    (text statusText : String) (payload : ZkmlView.ProofPayload)
    (vresp : Option Bool) (hvec : ZkmlView.parseVector text ≠ []) :
    ZkmlView.handleSubmit prev text statusText (some payload) vresp =
      if payload.statement ≠ "" ∧ payload.proof ≠ "" then
        { proof := { input := ZkmlView.parseVector text,
                     prediction := payload.prediction,
                     proof := payload.proof, statement := payload.statement,
                     verified := vresp.getD false },
          error := none, sentInfer := true, sentVerify := true }
      else
        { proof := { input := ZkmlView.parseVector text,
                     prediction := payload.prediction,
                     proof := payload.proof, statement := payload.statement,
                     verified := false },
          error := none, sentInfer := true, sentVerify := false } := by
  by_cases hsp : payload.statement ≠ "" ∧ payload.proof ≠ ""
  · simp only [ZkmlView.handleSubmit, if_neg hvec, if_pos hsp]
    cases vresp <;> rfl
  · simp only [ZkmlView.handleSubmit, if_neg hvec, if_neg hsp]

/-- C8 counterexample: the block type the dashboard declares for the
ledger's exchange representation has no `timestamp` field, although the
spec's field list requires one. -/
theorem claim_ledger_repr_no_timestamp :
    "timestamp" ∈ specLedgerBlockFields
    ∧ "timestamp" ∉ ledgerBlockFields := by
  decide

/-- C8 (amended): the dashboard's declared exchange representation of a
ledger block carries `index`, `hash`, `prev_hash`, `transactions` and
`projection` — and no `timestamp` field — while the response carries the
ordered `chain` and `pending` sequences. -/
theorem claim_ledger_repr_fields :
    ("index" ∈ ledgerBlockFields ∧ "hash" ∈ ledgerBlockFields
      ∧ "prev_hash" ∈ ledgerBlockFields
      ∧ "transactions" ∈ ledgerBlockFields
      ∧ "projection" ∈ ledgerBlockFields)
    ∧ "timestamp" ∉ ledgerBlockFields
    ∧ "chain" ∈ ledgerResponseFields
    ∧ "pending" ∈ ledgerResponseFields := by
  decide

/-- C9: after a submit whose inference succeeded, the displayed proof is
marked verified exactly when the inference payload has a non-empty statement
and a non-empty proof and the verify endpoint answered ok with
`valid = true`; in every other case the new proof state is unverified, the
error state stays clear, and the panel renders the label `unverified`. -/
theorem claim_zkml_verified_iff (prev : ZkmlView.ProofPayload)
    (text statusText : String) (payload : ZkmlView.ProofPayload)
    (vresp : Option Bool) (hvec : ZkmlView.parseVector text ≠ []) :
    ((ZkmlView.handleSubmit prev text statusText (some payload)
        vresp).proof.verified = true
      ↔ (payload.statement ≠ "" ∧ payload.proof ≠ "" ∧ vresp = some true))
    ∧ (ZkmlView.handleSubmit prev text statusText (some payload)
        vresp).error = none
    ∧ ((ZkmlView.handleSubmit prev text statusText (some payload)
          vresp).proof.verified = false →
        ZkmlView.verifiedLabel
          (ZkmlView.handleSubmit prev text statusText (some payload)
            vresp).proof = "unverified") := by
  rw [handleSubmit_some_eval prev text statusText payload vresp hvec]
  by_cases hsp : payload.statement ≠ "" ∧ payload.proof ≠ ""
  · rw [if_pos hsp]
    refine ⟨?_, rfl, ?_⟩
    · cases vresp with
      | none => simp [hsp.1, hsp.2]
      | some v => cases v <;> simp [hsp.1, hsp.2]
    · intro hfalse
      have hf : vresp.getD false = false := hfalse
      simp only [ZkmlView.verifiedLabel, hf]
      rfl
  · rw [if_neg hsp]
    refine ⟨?_, rfl, ?_⟩
    · constructor
      · intro hfalse
        exact absurd hfalse (by simp)
      · rintro ⟨h1, h2, -⟩
        exact absurd ⟨h1, h2⟩ hsp
    · intro hfalse
      simp only [ZkmlView.verifiedLabel]
      rfl

/-- C9 witness: a submit with the text `1,2`, a payload carrying a
non-empty statement and proof, and a verify answer `valid = true` is marked
verified; flipping the verify answer leaves it unverified. -/
theorem claim_zkml_verified_iff_witness :
    (ZkmlView.handleSubmit ZkmlView.defaultProof "1,2" "s"
        (some { input := [], prediction := none, proof := "p",
                statement := "st", verified := false })
        (some true)).proof.verified = true
    ∧ (ZkmlView.handleSubmit ZkmlView.defaultProof "1,2" "s"
        (some { input := [], prediction := none, proof := "p",
                statement := "st", verified := false })
        (some false)).proof.verified = false := by
  constructor
  · exact (claim_zkml_verified_iff ZkmlView.defaultProof "1,2" "s"
      { input := [], prediction := none, proof := "p", statement := "st",
        verified := false } (some true) (by decide)).1.mpr
      ⟨by decide, by decide, rfl⟩
  · have h := (claim_zkml_verified_iff ZkmlView.defaultProof "1,2" "s"
      { input := [], prediction := none, proof := "p", statement := "st",
        verified := false } (some false) (by decide)).1
    by_contra hne
    have htrue : (ZkmlView.handleSubmit ZkmlView.defaultProof "1,2" "s"
        (some { input := [], prediction := none, proof := "p",
                statement := "st", verified := false })
        (some false)).proof.verified = true := by
      cases hv : (ZkmlView.handleSubmit ZkmlView.defaultProof "1,2" "s"
          (some { input := [], prediction := none, proof := "p",
                  statement := "st", verified := false })
          (some false)).proof.verified
      · exact absurd hv hne
      · rfl
    obtain ⟨-, -, hcontra⟩ := h.mp htrue
    cases hcontra

/-- C10: `parseVector` keeps exactly the comma-separated entries that parse
as numbers, in order (non-numeric entries are silently dropped); and when no
numeric entry remains, `handleSubmit` reports the error message, sends no
inference request, and leaves the displayed proof state unchanged. -/
theorem claim_parse_vector (text : String) :
    ZkmlView.parseVector text
      = (ZkmlView.splitEntries text).filterMap ZkmlView.jsParseFloat
    ∧ (∀ (prev : ZkmlView.ProofPayload) (statusText : String)
        (iresp : Option ZkmlView.ProofPayload) (vresp : Option Bool),
        ZkmlView.parseVector text = [] →
          ZkmlView.handleSubmit prev text statusText iresp vresp =
            { proof := prev,
              error := some "Provide at least one numeric value.",
              sentInfer := false, sentVerify := false }) := by
  constructor
  · exact ZkmlView.filter_isSome_reduceOption ZkmlView.jsParseFloat
      (ZkmlView.splitEntries text)
  · intro prev statusText iresp vresp hempty
    unfold ZkmlView.handleSubmit
    rw [if_pos hempty]

/-- C10 witness: the text `a, b` parses to no numeric entry, so the submit
reports the error and sends nothing, keeping the previous proof state. -/
theorem claim_parse_vector_witness :
    ZkmlView.handleSubmit ZkmlView.defaultProof "a, b" "x" none none
      = { proof := ZkmlView.defaultProof,
          error := some "Provide at least one numeric value.",
          sentInfer := false, sentVerify := false } :=
  (claim_parse_vector "a, b").2 ZkmlView.defaultProof "x" none none
    (by decide)

end RingsOfSaturn
